import Mathlib

/-
Verification of the Game-Of-Life-Picture simulator (src/main.rs).

The Rust program stores the board as an `ndarray::Array2<bool>` created with
shape `(width, height)`, so the first axis (ndarray "rows", extent `nrows`)
is the horizontal/width axis of the picture and the second axis (ndarray
"cols", extent `ncols`) is the vertical/height axis.  We embed the grid as a
structure carrying the two extents and a total data function; the fallible
ndarray index operator (which panics out of bounds) is embedded as an
`Option`-valued read, and in-place writes as functional updates folded over
the iteration order of the source loops.
-/

namespace GoL

/-- Rust's `(a as isize + d).rem_euclid(m as isize) as usize`.
`Int.emod` is Euclidean remainder, matching `rem_euclid` for `m > 0`. -/
def wrap (a : Nat) (d : Int) (m : Nat) : Nat :=
  (((a : Int) + d) % (m : Int)).toNat

/-- `ndarray::Array2<bool>` with shape `(nrows, ncols)`. -/
structure Grid where
  nrows : Nat
  ncols : Nat
  data : Nat → Nat → Bool

/-- Indexing `grid[(i, j)]`: panics (here: `none`) out of bounds. -/
def Grid.get (g : Grid) (i j : Nat) : Option Bool :=
  if i < g.nrows ∧ j < g.ncols then some (g.data i j) else none

/-- Writing one cell, `grid[(i, j)] = v`, as a functional update. -/
def Grid.setCell (g : Grid) (i j : Nat) (v : Bool) : Grid :=
  { g with data := fun a b => if a = i ∧ b = j then v else g.data a b }

/-- The offsets `(i, j)` of the two nested loops `for i in -1..=1, for j in
-1..=1` of `next_state`, with the center `(0, 0)` skipped, in loop order. -/
def neighborOffsets : List (Int × Int) :=
  [(-1, -1), (-1, 0), (-1, 1), (0, -1), (0, 1), (1, -1), (1, 0), (1, 1)]

/-- One iteration of the neighbor-counting loop of `next_state`
(src/main.rs:73-83): for offset `(i, j) = d`, `nx = (x + i).rem_euclid(ncols)`,
`ny = (y + j).rem_euclid(ncols)` — the source wraps BOTH coordinates with
`grid.ncols()` — then reads `grid[(ny, nx)]` and bumps the count. -/
def lnStep (g : Grid) (x y : Nat) (acc : Option Nat) (d : Int × Int) : Option Nat := do
  let c ← acc
  let v ← g.get (wrap y d.2 g.ncols) (wrap x d.1 g.ncols)
  pure (c + if v then 1 else 0)

/-- The `live_neighbors` count computed by `next_state` (src/main.rs:72-84). -/
def liveNeighbors (g : Grid) (x y : Nat) : Option Nat :=
  neighborOffsets.foldl (lnStep g x y) (some 0)

/-- The same count as a total function, for use once all reads are known to
be in bounds. -/
def cntStep (g : Grid) (x y : Nat) (c : Nat) (d : Int × Int) : Nat :=
  c + if g.data (wrap y d.2 g.ncols) (wrap x d.1 g.ncols) then 1 else 0

/-- Total version of `liveNeighbors` (same reads, direct data access). -/
def countFn (g : Grid) (x y : Nat) : Nat :=
  neighborOffsets.foldl (cntStep g x y) 0

/-- The final `match (grid[(y, x)], live_neighbors)` of `next_state`
(src/main.rs:85-88): `(true, 2) | (_, 3) => true, _ => false`. -/
def lifeRule (cell : Bool) (n : Nat) : Bool :=
  match cell, n with
  | true, 2 => true
  | _, 3 => true
  | _, _ => false

/-- `next_state(grid, x, y)` (src/main.rs:71-89). -/
def nextState (g : Grid) (x y : Nat) : Option Bool := do
  let n ← liveNeighbors g x y
  let c ← g.get y x
  pure (lifeRule c n)

/-- Follows the spec's words (refinement reference, not the source): count
live neighbors among the 8 surrounding cells with the column coordinate
wrapped modulo the column extent and the row coordinate wrapped modulo the
row extent, each axis using its own dimension. -/
def liveNeighborsSpec (g : Grid) (x y : Nat) : Nat :=
  neighborOffsets.foldl
    (fun c d =>
      c + if g.data (wrap y d.2 g.nrows) (wrap x d.1 g.ncols) then 1 else 0)
    0

/-- The index sequence of `indexed_iter_mut` over a grid of shape `(R, C)`:
row-major pairs `(i, j)` with `i < R`, `j < C`. -/
def gridIndices (R C : Nat) : List (Nat × Nat) :=
  (List.range R).flatMap fun i => (List.range C).map fun j => (i, j)

/-- One iteration of the `next_generation` loop body (src/main.rs:94-96):
at index `p = (y, x)`, write `next_state(cur, x, y)` into `next[(y, x)]`. -/
def genStep (cur : Grid) (acc : Option Grid) (p : Nat × Nat) : Option Grid := do
  let g ← acc
  let v ← nextState cur p.2 p.1
  pure (g.setCell p.1 p.2 v)

/-- `next_generation(cur, next)` (src/main.rs:91-97): for every index
`(y, x)` of `next`, write `next_state(cur, x, y)` into `next[(y, x)]`.
Rayon parallelism only distributes disjoint writes, so the sequential fold
has the same result; a panic anywhere (an out-of-bounds read inside
`next_state`) aborts the whole call, embedded as `none`. -/
def nextGeneration (cur next : Grid) : Option Grid :=
  (gridIndices next.nrows next.ncols).foldl (genStep cur) (some next)

/-- One generation as the driver performs it (compute into a buffer, swap):
since the result is a function of `cur` alone, stepping with `cur` itself as
the buffer is the canonical iteration. -/
def stepOnce (g : Grid) : Option Grid := nextGeneration g g

/-- Iterating the transition engine `k` times; a panic stops everything. -/
def iterSteps : Nat → Grid → Option Grid
  | 0, g => some g
  | k + 1, g =>
    match nextGeneration g g with
    | some g' => iterSteps k g'
    | none => none

/-- `Array2::from_elem((W, H), false)` (src/main.rs:47-48). -/
def allDead (W H : Nat) : Grid := ⟨W, H, fun _ _ => false⟩

theorem gridIndices_mem (R C : Nat) (p : Nat × Nat) :
    p ∈ gridIndices R C ↔ p.1 < R ∧ p.2 < C := by
  rcases p with ⟨i, j⟩
  simp [gridIndices, List.mem_flatMap, List.mem_map, List.mem_range, Prod.mk.injEq]

theorem wrap_lt (a : Nat) (d : Int) (m : Nat) (hm : 1 ≤ m) : wrap a d m < m := by
  have h0 : (0 : Int) < (m : Int) := by exact_mod_cast hm
  have h1 := Int.emod_nonneg ((a : Int) + d) (by omega : (m : Int) ≠ 0)
  have h2 := Int.emod_lt_of_pos ((a : Int) + d) h0
  unfold wrap
  omega

theorem wrap_of_lt (a : Nat) (d : Int) (m : Nat) (h0 : 0 ≤ (a : Int) + d)
    (h1 : (a : Int) + d < (m : Int)) : wrap a d m = ((a : Int) + d).toNat := by
  unfold wrap
  rw [Int.emod_eq_of_lt h0 h1]

theorem wrap_zero_off (a m : Nat) (h : a < m) : wrap a 0 m = a := by
  have := wrap_of_lt a 0 m (by omega) (by omega)
  omega

theorem wrap_one (a m : Nat) (h : a + 1 < m) : wrap a 1 m = a + 1 := by
  have := wrap_of_lt a 1 m (by omega) (by omega)
  omega

theorem wrap_neg_one (a m : Nat) (h1 : 1 ≤ a) (h2 : a < m) :
    wrap a (-1) m = a - 1 := by
  have := wrap_of_lt a (-1) m (by omega) (by omega)
  omega

theorem wrap_zero_neg_one (m : Nat) (h : 1 ≤ m) : wrap 0 (-1) m = m - 1 := by
  unfold wrap
  have e : ((0 : Nat) : Int) + (-1) = ((m : Int) - 1) + (m : Int) * (-1) := by ring
  rw [e, Int.add_mul_emod_self_left, Int.emod_eq_of_lt (by omega) (by omega)]
  omega

theorem wrap_top_one (m : Nat) (h : 1 ≤ m) : wrap (m - 1) 1 m = 0 := by
  unfold wrap
  have : ((m - 1 : Nat) : Int) + 1 = (m : Int) := by omega
  rw [this, Int.emod_self]
  rfl

/-- `Grid.get` succeeds inside the bounds. -/
theorem get_in_bounds (g : Grid) (i j : Nat) (hi : i < g.nrows) (hj : j < g.ncols) :
    g.get i j = some (g.data i j) := by
  simp [Grid.get, hi, hj]

/-- When the grid has at least one column and no more columns than rows,
every read of the counting loop is in bounds, and `liveNeighbors` computes
the total function `countFn`. -/
theorem liveNeighbors_eq_countFn (g : Grid) (x y : Nat)
    (hc : 1 ≤ g.ncols) (hcr : g.ncols ≤ g.nrows) :
    liveNeighbors g x y = some (countFn g x y) := by
  have hstep : ∀ (l : List (Int × Int)) (n : Nat),
      l.foldl (lnStep g x y) (some n) = some (l.foldl (cntStep g x y) n) := by
    intro l
    induction l with
    | nil => intro n; rfl
    | cons d t ih =>
      intro n
      have hget := get_in_bounds g (wrap y d.2 g.ncols) (wrap x d.1 g.ncols)
        (lt_of_lt_of_le (wrap_lt y d.2 g.ncols hc) hcr)
        (wrap_lt x d.1 g.ncols hc)
      rw [List.foldl_cons, List.foldl_cons]
      have : lnStep g x y (some n) d = some (cntStep g x y n d) := by
        simp [lnStep, cntStep, hget]
      rw [this]
      exact ih _
  exact hstep neighborOffsets 0

theorem setCell_nrows (g : Grid) (i j : Nat) (v : Bool) :
    (g.setCell i j v).nrows = g.nrows := rfl

theorem setCell_ncols (g : Grid) (i j : Nat) (v : Bool) :
    (g.setCell i j v).ncols = g.ncols := rfl

/-- The pure write-fold that `nextGeneration` performs when no cell panics. -/
def writeFold (f : Nat × Nat → Bool) (l : List (Nat × Nat)) (g0 : Grid) : Grid :=
  l.foldl (fun g p => g.setCell p.1 p.2 (f p)) g0

theorem writeFold_nrows (f : Nat × Nat → Bool) :
    ∀ (l : List (Nat × Nat)) (g0 : Grid), (writeFold f l g0).nrows = g0.nrows := by
  intro l
  induction l with
  | nil => intro g0; rfl
  | cons a t ih => intro g0; exact ih _

theorem writeFold_ncols (f : Nat × Nat → Bool) :
    ∀ (l : List (Nat × Nat)) (g0 : Grid), (writeFold f l g0).ncols = g0.ncols := by
  intro l
  induction l with
  | nil => intro g0; rfl
  | cons a t ih => intro g0; exact ih _

theorem writeFold_data (f : Nat × Nat → Bool) :
    ∀ (l : List (Nat × Nat)) (g0 : Grid) (i j : Nat),
      (writeFold f l g0).data i j =
        if (i, j) ∈ l then f (i, j) else g0.data i j := by
  intro l
  induction l with
  | nil => intro g0 i j; simp [writeFold]
  | cons a t ih =>
    intro g0 i j
    rw [writeFold, List.foldl_cons, ← writeFold, ih]
    by_cases h1 : (i, j) ∈ t
    · simp [List.mem_cons, h1]
    · rcases a with ⟨ai, aj⟩
      by_cases h2 : i = ai ∧ j = aj
      · rcases h2 with ⟨rfl, rfl⟩
        simp [List.mem_cons, h1, Grid.setCell]
      · have hne : ¬ ((i, j) = (ai, aj)) := by
          simp only [Prod.mk.injEq]
          exact h2
        simp [List.mem_cons, h1, hne, Grid.setCell, h2]

theorem genFold_some (cur : Grid) (f : Nat × Nat → Bool) :
    ∀ (l : List (Nat × Nat)) (g0 : Grid),
      (∀ p ∈ l, nextState cur p.2 p.1 = some (f p)) →
      l.foldl (genStep cur) (some g0) = some (writeFold f l g0) := by
  intro l
  induction l with
  | nil => intro g0 _; rfl
  | cons a t ih =>
    intro g0 h
    have ha := h a (List.mem_cons_self a t)
    have ht : ∀ p ∈ t, nextState cur p.2 p.1 = some (f p) := by
      intro p hp
      exact h p (List.mem_cons_of_mem a hp)
    rw [List.foldl_cons]
    have hstep : genStep cur (some g0) a = some (g0.setCell a.1 a.2 (f a)) := by
      simp [genStep, ha]
    rw [hstep, ih _ ht]
    rfl

theorem genFold_base_none (cur : Grid) :
    ∀ (l : List (Nat × Nat)), l.foldl (genStep cur) none = none := by
  intro l
  induction l with
  | nil => rfl
  | cons a t ih =>
    rw [List.foldl_cons]
    exact ih

theorem genFold_none (cur : Grid) (p0 : Nat × Nat)
    (h : nextState cur p0.2 p0.1 = none) :
    ∀ (l : List (Nat × Nat)), p0 ∈ l → ∀ (acc : Option Grid),
      l.foldl (genStep cur) acc = none := by
  intro l
  induction l with
  | nil => intro hm; cases hm
  | cons a t ih =>
    intro hm acc
    rcases List.mem_cons.mp hm with hEq | hmt
    · subst hEq
      rw [List.foldl_cons]
      have hstep : genStep cur acc p0 = none := by
        cases acc <;> simp [genStep, h]
      rw [hstep]
      exact genFold_base_none cur t
    · rw [List.foldl_cons]
      exact ih hmt _

/-- Characterization of a successful generation: when `next_state` succeeds
at every index of the target buffer, `next_generation` overwrites exactly
the in-range cells with those values. -/
theorem nextGeneration_some (cur next : Grid) (f : Nat × Nat → Bool)
    (h : ∀ p ∈ gridIndices next.nrows next.ncols, nextState cur p.2 p.1 = some (f p)) :
    nextGeneration cur next = some (writeFold f (gridIndices next.nrows next.ncols) next) ∧
    (writeFold f (gridIndices next.nrows next.ncols) next).nrows = next.nrows ∧
    (writeFold f (gridIndices next.nrows next.ncols) next).ncols = next.ncols ∧
    ∀ i j, (writeFold f (gridIndices next.nrows next.ncols) next).data i j =
      if i < next.nrows ∧ j < next.ncols then f (i, j) else next.data i j := by
  refine ⟨genFold_some cur f _ next h, writeFold_nrows f _ next, writeFold_ncols f _ next, ?_⟩
  intro i j
  rw [writeFold_data]
  by_cases hm : i < next.nrows ∧ j < next.ncols
  · have : (i, j) ∈ gridIndices next.nrows next.ncols := (gridIndices_mem _ _ _).mpr hm
    simp [this, hm]
  · have : ¬ ((i, j) ∈ gridIndices next.nrows next.ncols) := by
      rw [gridIndices_mem]
      exact hm
    simp [this, hm]

/-- A panic at any in-range index aborts the whole generation. -/
theorem nextGeneration_none (cur next : Grid) (p0 : Nat × Nat)
    (hm : p0.1 < next.nrows ∧ p0.2 < next.ncols)
    (h : nextState cur p0.2 p0.1 = none) :
    nextGeneration cur next = none := by
  exact genFold_none cur p0 h _ ((gridIndices_mem _ _ _).mpr hm) _

/-- A 5-wide, 3-tall grid with a single live cell at row 4, column 1
(first axis = width axis). -/
def gC1 : Grid := ⟨5, 3, fun i j => decide (i = 4 ∧ j = 1)⟩

/-- **C1.** The code does NOT wrap each axis with its own extent: on the
5×3 grid `gC1` whose only live cell is at row 4, the cell at row 0, column 1
has exactly one true toroidal neighbor (row `-1` wraps to row 4), but the
source wraps the row offset with `ncols = 3`, reads rows `{2, 0, 1}` only,
and counts 0. -/
theorem c1_row_wraps_with_ncols :
    liveNeighbors gC1 1 0 = some 0 ∧ liveNeighborsSpec gC1 1 0 = 1 := by
  constructor <;> rfl

/-- **C3.** On the well-formed 1-wide, 2-tall all-dead grid, the per-cell
transition at the in-range cell `x = 0, y = 0` performs an out-of-bounds
read (row `-1` wraps modulo `ncols = 2` to row 1, but the grid has 1 row),
so `next_state` panics instead of being total. -/
theorem c3_out_of_bounds_read :
    nextState (allDead 1 2) 0 0 = none := by
  rfl

/-- **C2.** The transition rule of `next_state`: the next state is live iff
the cell is live with exactly 2 or 3 live neighbors, or dead with exactly 3;
and `next_state` applies exactly this rule to the cell's value and its
live-neighbor count. -/
theorem c2_rule_of_cell_and_count :
    (∀ g x y n c, liveNeighbors g x y = some n → Grid.get g y x = some c →
      nextState g x y = some (lifeRule c n)) ∧
    (∀ (b : Bool) (n : Nat),
      lifeRule b n = true ↔ ((b = true ∧ (n = 2 ∨ n = 3)) ∨ (b = false ∧ n = 3))) := by
  constructor
  · intro g x y n c h1 h2
    simp [nextState, h1, h2]
  · intro b n
    cases b <;> rcases n with _ | _ | _ | _ | m <;> simp [lifeRule]

/-- Witness for C2 at a concrete input: on the 1×1 all-dead grid the count
is `some 0`, the cell reads `some false`, and the rule yields a dead cell. -/
theorem c2_rule_of_cell_and_count_witness :
    nextState (allDead 1 1) 0 0 = some (lifeRule false 0) ∧
    (lifeRule true 2 = true ↔
      ((true = true ∧ ((2 : Nat) = 2 ∨ (2 : Nat) = 3)) ∨ (true = false ∧ (2 : Nat) = 3))) :=
  ⟨c2_rule_of_cell_and_count.1 (allDead 1 1) 0 0 0 false (by rfl) (by rfl),
   c2_rule_of_cell_and_count.2 true 2⟩

theorem cntFold_zero (g : Grid) (x y : Nat) :
    ∀ (l : List (Int × Int)) (n : Nat),
      (∀ d ∈ l, g.data (wrap y d.2 g.ncols) (wrap x d.1 g.ncols) = false) →
      l.foldl (cntStep g x y) n = n := by
  intro l
  induction l with
  | nil => intro n _; rfl
  | cons d t ih =>
    intro n h
    rw [List.foldl_cons]
    have hd := h d (List.mem_cons_self d t)
    have : cntStep g x y n d = n := by
      simp [cntStep, hd]
    rw [this]
    exact ih n (fun e he => h e (List.mem_cons_of_mem d he))

/-- On an on-domain all-dead grid with `ncols ≤ nrows`, every per-cell
transition succeeds and yields a dead cell. -/
theorem nextState_allFalse (g : Grid)
    (hc : 1 ≤ g.ncols) (hcr : g.ncols ≤ g.nrows)
    (hg : ∀ i j, i < g.nrows → j < g.ncols → g.data i j = false)
    (x y : Nat) (hx : x < g.ncols) (hy : y < g.nrows) :
    nextState g x y = some false := by
  have hcount : countFn g x y = 0 := by
    apply cntFold_zero
    intro d _
    exact hg _ _ (lt_of_lt_of_le (wrap_lt y d.2 g.ncols hc) hcr) (wrap_lt x d.1 g.ncols hc)
  have hln := liveNeighbors_eq_countFn g x y hc hcr
  have hcell : g.get y x = some false := by
    rw [get_in_bounds g y x hy hx, hg y x hy hx]
  simp [nextState, hln, hcount, hcell, lifeRule]

/-- One generation preserves on-domain all-deadness (for the shapes on which
the engine does not panic). -/
theorem step_allDead (g : Grid) (hc : 1 ≤ g.ncols) (hcr : g.ncols ≤ g.nrows)
    (hg : ∀ i j, i < g.nrows → j < g.ncols → g.data i j = false) :
    ∃ g', nextGeneration g g = some g' ∧ g'.nrows = g.nrows ∧ g'.ncols = g.ncols ∧
      ∀ i j, i < g'.nrows → j < g'.ncols → g'.data i j = false := by
  have h : ∀ p ∈ gridIndices g.nrows g.ncols, nextState g p.2 p.1 = some ((fun _ => false) p) := by
    intro p hp
    rcases (gridIndices_mem _ _ _).mp hp with ⟨h1, h2⟩
    exact nextState_allFalse g hc hcr hg p.2 p.1 h2 h1
  obtain ⟨heq, hr, hcc, hdata⟩ := nextGeneration_some g g (fun _ => false) h
  refine ⟨_, heq, hr, hcc, ?_⟩
  intro i j hi hj
  rw [hdata i j]
  rw [hr] at hi
  rw [hcc] at hj
  simp [hi, hj]

/-- **C7 (amended).** For every width `W`, height `H` with `1 ≤ H ≤ W`
(the shapes on which the engine does not read out of bounds), the all-dead
grid stays all-dead under any number of generations. -/
theorem c7_all_dead_stays_dead :
    ∀ (W H k : Nat), 1 ≤ H → H ≤ W →
      ∃ g, iterSteps k (allDead W H) = some g ∧ g.nrows = W ∧ g.ncols = H ∧
        ∀ i j, i < W → j < H → g.data i j = false := by
  have main : ∀ (k : Nat) (g : Grid), 1 ≤ g.ncols → g.ncols ≤ g.nrows →
      (∀ i j, i < g.nrows → j < g.ncols → g.data i j = false) →
      ∃ g', iterSteps k g = some g' ∧ g'.nrows = g.nrows ∧ g'.ncols = g.ncols ∧
        ∀ i j, i < g'.nrows → j < g'.ncols → g'.data i j = false := by
    intro k
    induction k with
    | zero =>
      intro g h1 h2 h3
      refine ⟨g, rfl, rfl, rfl, ?_⟩
      intro i j hi hj
      exact h3 i j hi hj
    | succ k ih =>
      intro g h1 h2 h3
      obtain ⟨g1, hg1, hr, hc2, hdata⟩ := step_allDead g h1 h2 h3
      obtain ⟨g', h', hr', hc', hd'⟩ := ih g1 (by rw [hc2]; exact h1)
        (by rw [hc2, hr]; exact h2) hdata
      refine ⟨g', ?_, by rw [hr', hr], by rw [hc', hc2], hd'⟩
      simp only [iterSteps, hg1]
      exact h'
  intro W H k h1 h2
  obtain ⟨g', h', hr', hc', hd'⟩ := main k (allDead W H) h1 h2 (fun _ _ _ _ => rfl)
  refine ⟨g', h', hr', hc', ?_⟩
  intro i j hi hj
  exact hd' i j (by rw [hr']; exact hi) (by rw [hc']; exact hj)

/-- Witness for C7 at `W = H = 1`, one generation. -/
theorem c7_all_dead_stays_dead_witness :
    ∃ g, iterSteps 1 (allDead 1 1) = some g ∧ g.nrows = 1 ∧ g.ncols = 1 ∧
      ∀ i j, i < 1 → j < 1 → g.data i j = false :=
  c7_all_dead_stays_dead 1 1 1 (by decide) (by decide)

/-- **C7 counterexample.** On the well-formed 1-wide, 2-tall all-dead grid,
one application of the transition engine panics (out-of-bounds read) instead
of yielding an all-dead grid, so the claim fails as stated for every
`W ≥ 1, H ≥ 1`. -/
theorem c7_counterexample : iterSteps 1 (allDead 1 2) = none := by
  rfl

/-- **C9.** The generation written into the next-buffer is a function of the
current grid alone: for one `cur` and any two same-shaped buffers (arbitrary
prior contents), `next_generation` either panics on both or writes identical
in-range contents into both.  (The embedding is pure, so `cur` itself is
untouched by construction, matching Rust's `&`-borrow of `cur`.) -/
theorem c9_generation_function_of_cur :
    ∀ (cur n1 n2 : Grid), n1.nrows = n2.nrows → n1.ncols = n2.ncols →
      ((nextGeneration cur n1 = none ↔ nextGeneration cur n2 = none) ∧
       ∀ g1 g2, nextGeneration cur n1 = some g1 → nextGeneration cur n2 = some g2 →
         g1.nrows = g2.nrows ∧ g1.ncols = g2.ncols ∧
         ∀ i j, i < g1.nrows → j < g1.ncols → g1.data i j = g2.data i j) := by
  intro cur n1 n2 hr hc
  by_cases hall : ∀ p ∈ gridIndices n1.nrows n1.ncols, nextState cur p.2 p.1 ≠ none
  · have h1 : ∀ p ∈ gridIndices n1.nrows n1.ncols,
        nextState cur p.2 p.1 = some ((nextState cur p.2 p.1).getD false) := by
      intro p hp
      rcases he : nextState cur p.2 p.1 with _ | v
      · exact absurd he (hall p hp)
      · rfl
    have h2 : ∀ p ∈ gridIndices n2.nrows n2.ncols,
        nextState cur p.2 p.1 = some ((nextState cur p.2 p.1).getD false) := by
      rw [← hr, ← hc]
      exact h1
    obtain ⟨e1, r1, c1, d1⟩ := nextGeneration_some cur n1 _ h1
    obtain ⟨e2, r2, c2, d2⟩ := nextGeneration_some cur n2 _ h2
    constructor
    · rw [e1, e2]
      simp
    · intro g1 g2 hg1 hg2
      rw [e1] at hg1
      rw [e2] at hg2
      cases hg1
      cases hg2
      refine ⟨by rw [r1, r2, hr], by rw [c1, c2, hc], ?_⟩
      intro i j hi hj
      rw [r1] at hi
      rw [c1] at hj
      rw [d1 i j, d2 i j]
      simp [hi, hj, hr ▸ hi, hc ▸ hj]
  · push_neg at hall
    obtain ⟨p, hp, hnone⟩ := hall
    rcases (gridIndices_mem _ _ _).mp hp with ⟨hb1, hb2⟩
    have e1 := nextGeneration_none cur n1 p ⟨hb1, hb2⟩ hnone
    have e2 := nextGeneration_none cur n2 p ⟨by rw [← hr]; exact hb1, by rw [← hc]; exact hb2⟩ hnone
    constructor
    · rw [e1, e2]
    · intro g1 g2 hg1 hg2
      rw [e1] at hg1
      cases hg1

/-- Witness for C9: two 1×1 buffers with different prior contents receive
the same generation computed from the same current grid. -/
theorem c9_generation_function_of_cur_witness :
    (nextGeneration (allDead 1 1) (allDead 1 1) = none ↔
      nextGeneration (allDead 1 1) (Grid.mk 1 1 fun _ _ => true) = none) ∧
    ∀ g1 g2, nextGeneration (allDead 1 1) (allDead 1 1) = some g1 →
      nextGeneration (allDead 1 1) (Grid.mk 1 1 fun _ _ => true) = some g2 →
      g1.nrows = g2.nrows ∧ g1.ncols = g2.ncols ∧
      ∀ i j, i < g1.nrows → j < g1.ncols → g1.data i j = g2.data i j :=
  c9_generation_function_of_cur (allDead 1 1) (allDead 1 1)
    (Grid.mk 1 1 fun _ _ => true) rfl rfl

/-- `image::GrayImage`, single channel; `GrayImage::new` zero-fills. -/
structure Image where
  width : Nat
  height : Nat
  pix : Nat → Nat → Nat

def Image.new (w h : Nat) : Image := ⟨w, h, fun _ _ => 0⟩

/-- `img.put_pixel(c, r, v)`: panics (here `none`) out of bounds. -/
def putPixel (img : Image) (c r v : Nat) : Option Image :=
  if c < img.width ∧ r < img.height then
    some { img with pix := fun a b => if a = c ∧ b = r then v else img.pix a b }
  else none

/-- The pure update `putPixel` performs when in bounds. -/
def pixPut (img : Image) (c r v : Nat) : Image :=
  { img with pix := fun a b => if a = c ∧ b = r then v else img.pix a b }

/-- `2^32`: modulus of Rust `u32` arithmetic. -/
def U32 : Nat := 4294967296

/-- The pixel writes of one cell `(x, y)` with pixel value `v`
(src/main.rs:107-111): `put_pixel(x as u32 * size + j, y as u32 * size + i,
v)` for `i` in `0..size` (outer loop) and `j` in `0..size` (inner loop).
The coordinates are computed in `u32`: the `usize` cell index is truncated
(`as u32`, i.e. `% 2^32`) and the product and sum wrap modulo `2^32`
(release-profile semantics; a debug build panics at the same overflows, and
either way no correctly-sized buffer is produced). -/
def cellWrites (S x y v : Nat) : List ((Nat × Nat) × Nat) :=
  (List.range S).flatMap fun i => (List.range S).map fun j =>
    ((((x % U32) * S % U32 + j) % U32, ((y % U32) * S % U32 + i) % U32), v)

/-- All writes of the loop over `grid.indexed_iter()` in `array2_to_image`
(src/main.rs:105-112), in iteration order: per cell `(x, y)` the value is
`64` if live, `0` if dead. -/
def imageWrites (g : Grid) (S : Nat) : List ((Nat × Nat) × Nat) :=
  (gridIndices g.nrows g.ncols).flatMap fun p =>
    cellWrites S p.1 p.2 (if g.data p.1 p.2 then 64 else 0)

def pixStep (acc : Option Image) (w : (Nat × Nat) × Nat) : Option Image := do
  let img ← acc
  putPixel img w.1.1 w.1.2 w.2

/-- `array2_to_image(grid, size)` (src/main.rs:99-115): `height =
grid.ncols() as u32 * size`, `width = grid.nrows() as u32 * size` (the first
ndarray axis is the picture's horizontal axis), both computed in `u32`
(truncating cast, wrapping product), a zero-filled `GrayImage` of those
dimensions, then the per-cell block writes. -/
def array2ToImage (g : Grid) (S : Nat) : Option Image :=
  (imageWrites g S).foldl pixStep
    (some (Image.new ((g.nrows % U32) * S % U32) ((g.ncols % U32) * S % U32)))

def pixWriteFold (l : List ((Nat × Nat) × Nat)) (img0 : Image) : Image :=
  l.foldl (fun img w => pixPut img w.1.1 w.1.2 w.2) img0

theorem pixWriteFold_width :
    ∀ (l : List ((Nat × Nat) × Nat)) (img0 : Image),
      (pixWriteFold l img0).width = img0.width := by
  intro l
  induction l with
  | nil => intro img0; rfl
  | cons a t ih => intro img0; exact ih _

theorem pixWriteFold_height :
    ∀ (l : List ((Nat × Nat) × Nat)) (img0 : Image),
      (pixWriteFold l img0).height = img0.height := by
  intro l
  induction l with
  | nil => intro img0; rfl
  | cons a t ih => intro img0; exact ih _

theorem pixWriteFold_pix (f : Nat → Nat → Nat) :
    ∀ (l : List ((Nat × Nat) × Nat)) (img0 : Image),
      (∀ w ∈ l, w.2 = f w.1.1 w.1.2) →
      ∀ c r, (pixWriteFold l img0).pix c r =
        if (c, r) ∈ l.map Prod.fst then f c r else img0.pix c r := by
  intro l
  induction l with
  | nil => intro img0 _ c r; simp [pixWriteFold]
  | cons a t ih =>
    intro img0 h c r
    have ha := h a (List.mem_cons_self a t)
    have ht : ∀ w ∈ t, w.2 = f w.1.1 w.1.2 := by
      intro w hw
      exact h w (List.mem_cons_of_mem a hw)
    rw [pixWriteFold, List.foldl_cons, ← pixWriteFold, ih _ ht]
    by_cases h1 : (c, r) ∈ t.map Prod.fst
    · simp [h1]
    · by_cases h2 : c = a.1.1 ∧ r = a.1.2
      · rcases h2 with ⟨rfl, rfl⟩
        have : (a.1.1, a.1.2) = a.1 := rfl
        simp [h1, pixPut, this, ha]
      · have hne : ¬ ((c, r) = a.1) := by
          intro he
          apply h2
          constructor
          · rw [← he]
          · rw [← he]
        simp [h1, hne, pixPut, h2]

theorem pixFold_some :
    ∀ (l : List ((Nat × Nat) × Nat)) (img0 : Image),
      (∀ w ∈ l, w.1.1 < img0.width ∧ w.1.2 < img0.height) →
      l.foldl pixStep (some img0) = some (pixWriteFold l img0) := by
  intro l
  induction l with
  | nil => intro img0 _; rfl
  | cons a t ih =>
    intro img0 h
    have ha := h a (List.mem_cons_self a t)
    rw [List.foldl_cons]
    have hstep : pixStep (some img0) a = some (pixPut img0 a.1.1 a.1.2 a.2) := by
      simp [pixStep, putPixel, pixPut, ha.1, ha.2]
    rw [hstep, pixWriteFold, List.foldl_cons, ← pixWriteFold]
    apply ih
    intro w hw
    exact h w (List.mem_cons_of_mem a hw)

theorem putPixel_some_dims (img img' : Image) (c r v : Nat)
    (h : putPixel img c r v = some img') :
    img'.width = img.width ∧ img'.height = img.height := by
  unfold putPixel at h
  by_cases hc : c < img.width ∧ r < img.height
  · rw [if_pos hc] at h
    cases h
    exact ⟨rfl, rfl⟩
  · rw [if_neg hc] at h
    cases h

theorem pixFold_base_none :
    ∀ (l : List ((Nat × Nat) × Nat)), l.foldl pixStep none = none := by
  intro l
  induction l with
  | nil => rfl
  | cons a t ih =>
    rw [List.foldl_cons]
    exact ih

/-- One out-of-bounds write anywhere in the list makes the whole write fold
panic (`put_pixel` panics out of bounds and image dimensions never change). -/
theorem pixFold_none :
    ∀ (l : List ((Nat × Nat) × Nat)) (img0 : Image),
      (∃ w ∈ l, ¬ (w.1.1 < img0.width ∧ w.1.2 < img0.height)) →
      l.foldl pixStep (some img0) = none := by
  intro l
  induction l with
  | nil =>
    rintro img0 ⟨w, hw, _⟩
    cases hw
  | cons a t ih =>
    rintro img0 ⟨w, hw, hoob⟩
    rcases List.mem_cons.mp hw with hEq | hwt
    · subst hEq
      rw [List.foldl_cons]
      have hstep : pixStep (some img0) w = none := by
        have : putPixel img0 w.1.1 w.1.2 w.2 = none := by
          unfold putPixel
          rw [if_neg hoob]
        exact this
      rw [hstep]
      exact pixFold_base_none t
    · rw [List.foldl_cons]
      rcases hstep : pixStep (some img0) a with _ | img1
      · exact pixFold_base_none t
      · have hput : putPixel img0 a.1.1 a.1.2 a.2 = some img1 := hstep
        have hdims := putPixel_some_dims img0 img1 a.1.1 a.1.2 a.2 hput
        apply ih
        refine ⟨w, hwt, ?_⟩
        rw [hdims.1, hdims.2]
        exact hoob

theorem le_mul_self_right (R S : Nat) (hS : 1 ≤ S) : R ≤ R * S := by
  have h := Nat.mul_le_mul (Nat.le_refl R) hS
  have e : R * 1 = R := by ring
  omega

theorem block_lt (x j R S : Nat) (hx : x < R) (hj : j < S) :
    x * S + j < R * S := by
  have h1 : (x + 1) * S ≤ R * S := Nat.mul_le_mul_right S (by omega)
  have e : (x + 1) * S = x * S + S := by ring
  omega

/-- When the dimension product fits in `u32`, the truncating cast and the
wrapping product are exact. -/
theorem dimU32_eq (R S : Nat) (hS : 1 ≤ S) (h : R * S < U32) :
    (R % U32) * S % U32 = R * S := by
  have hRS := le_mul_self_right R S hS
  rw [Nat.mod_eq_of_lt (show R < U32 by omega), Nat.mod_eq_of_lt h]

/-- When the dimension product fits in `u32`, every pixel-coordinate
computation of `cellWrites` is exact. -/
theorem coordU32_eq (x j R S : Nat) (hx : x < R) (hj : j < S) (h : R * S < U32) :
    ((x % U32) * S % U32 + j) % U32 = x * S + j := by
  have hS : 1 ≤ S := by omega
  have hRS := le_mul_self_right R S hS
  have hxS := block_lt x j R S hx hj
  rw [Nat.mod_eq_of_lt (show x < U32 by omega),
    Nat.mod_eq_of_lt (show x * S < U32 by omega),
    Nat.mod_eq_of_lt (show x * S + j < U32 by omega)]

theorem block_div (x j S : Nat) (hS : 1 ≤ S) (hj : j < S) :
    (x * S + j) / S = x := by
  have e : x * S + j = j + S * x := by ring
  rw [e, Nat.add_mul_div_left j x hS, Nat.div_eq_of_lt hj]
  omega

theorem div_block_iff (c a S : Nat) (hS : 1 ≤ S) :
    c / S = a ↔ (a * S ≤ c ∧ c < a * S + S) := by
  constructor
  · intro h
    have hmod := Nat.mod_lt c (show 0 < S by omega)
    have hdm := Nat.div_add_mod c S
    rw [h] at hdm
    have e : S * a = a * S := by ring
    omega
  · rintro ⟨h1, h2⟩
    have hc : c = a * S + (c - a * S) := by omega
    rw [hc]
    exact block_div a (c - a * S) S hS (by omega)

theorem imageWrites_value (g : Grid) (S : Nat) (hS : 1 ≤ S)
    (hwb : g.nrows * S < U32) (hhb : g.ncols * S < U32) :
    ∀ w ∈ imageWrites g S,
      w.2 = if g.data (w.1.1 / S) (w.1.2 / S) then 64 else 0 := by
  intro w hw
  simp only [imageWrites, List.mem_flatMap] at hw
  obtain ⟨p, hp, hcw⟩ := hw
  rcases (gridIndices_mem _ _ _).mp hp with ⟨hp1, hp2⟩
  simp only [cellWrites, List.mem_flatMap, List.mem_map, List.mem_range] at hcw
  obtain ⟨i, hi, j, hj, he⟩ := hcw
  rw [← he]
  simp only
  rw [coordU32_eq p.1 j g.nrows S hp1 hj hwb, coordU32_eq p.2 i g.ncols S hp2 hi hhb,
    block_div p.1 j S hS hj, block_div p.2 i S hS hi]

theorem imageWrites_bounds (g : Grid) (S : Nat)
    (hwb : g.nrows * S < U32) (hhb : g.ncols * S < U32) :
    ∀ w ∈ imageWrites g S, w.1.1 < g.nrows * S ∧ w.1.2 < g.ncols * S := by
  intro w hw
  simp only [imageWrites, List.mem_flatMap] at hw
  obtain ⟨p, hp, hcw⟩ := hw
  rcases (gridIndices_mem _ _ _).mp hp with ⟨hp1, hp2⟩
  simp only [cellWrites, List.mem_flatMap, List.mem_map, List.mem_range] at hcw
  obtain ⟨i, hi, j, hj, he⟩ := hcw
  rw [← he]
  simp only
  rw [coordU32_eq p.1 j g.nrows S hp1 hj hwb, coordU32_eq p.2 i g.ncols S hp2 hi hhb]
  exact ⟨block_lt p.1 j g.nrows S hp1 hj, block_lt p.2 i g.ncols S hp2 hi⟩

theorem imageWrites_covers (g : Grid) (S : Nat) (hS : 1 ≤ S)
    (hwb : g.nrows * S < U32) (hhb : g.ncols * S < U32)
    (c r : Nat) (hc : c < g.nrows * S) (hr : r < g.ncols * S) :
    (c, r) ∈ (imageWrites g S).map Prod.fst := by
  have hx : c / S < g.nrows := by
    rw [Nat.div_lt_iff_lt_mul (show 0 < S by omega)]
    have e : g.nrows * S = S * g.nrows := by ring
    omega
  have hy : r / S < g.ncols := by
    rw [Nat.div_lt_iff_lt_mul (show 0 < S by omega)]
    have e : g.ncols * S = S * g.ncols := by ring
    omega
  have hcm : c % S < S := Nat.mod_lt c (show 0 < S by omega)
  have hrm : r % S < S := Nat.mod_lt r (show 0 < S by omega)
  have hce : c = (c / S) * S + c % S := by
    have h1 := Nat.div_add_mod c S
    have h2 : S * (c / S) = (c / S) * S := by ring
    omega
  have hre : r = (r / S) * S + r % S := by
    have h1 := Nat.div_add_mod r S
    have h2 : S * (r / S) = (r / S) * S := by ring
    omega
  simp only [List.mem_map, imageWrites, List.mem_flatMap]
  refine ⟨((c, r), if g.data (c / S) (r / S) then 64 else 0), ⟨(c / S, r / S), ?_, ?_⟩, rfl⟩
  · rw [gridIndices_mem]
    exact ⟨hx, hy⟩
  · simp only [cellWrites, List.mem_flatMap, List.mem_map, List.mem_range]
    refine ⟨r % S, hrm, c % S, hcm, ?_⟩
    rw [coordU32_eq (c / S) (c % S) g.nrows S hx hcm hwb,
      coordU32_eq (r / S) (r % S) g.ncols S hy hrm hhb, ← hce, ← hre]

/-- Full characterization of the rasterizer: it always succeeds, the buffer
is `(nrows*S) × (ncols*S)`, and each in-range pixel `(c, r)` holds the fixed
live intensity 64 or dead intensity 0 according to cell `(c/S, r/S)`. -/
theorem rasterChar (g : Grid) (S : Nat) (hS : 1 ≤ S)
    (hwb : g.nrows * S < U32) (hhb : g.ncols * S < U32) :
    ∃ img, array2ToImage g S = some img ∧
      img.width = g.nrows * S ∧ img.height = g.ncols * S ∧
      ∀ c r, c < g.nrows * S → r < g.ncols * S →
        img.pix c r = if g.data (c / S) (r / S) then 64 else 0 := by
  have e1 : (g.nrows % U32) * S % U32 = g.nrows * S := dimU32_eq g.nrows S hS hwb
  have e2 : (g.ncols % U32) * S % U32 = g.ncols * S := dimU32_eq g.ncols S hS hhb
  have hb : ∀ w ∈ imageWrites g S,
      w.1.1 < (Image.new ((g.nrows % U32) * S % U32) ((g.ncols % U32) * S % U32)).width ∧
      w.1.2 < (Image.new ((g.nrows % U32) * S % U32) ((g.ncols % U32) * S % U32)).height := by
    intro w hwm
    have hx := imageWrites_bounds g S hwb hhb w hwm
    constructor
    · show w.1.1 < (g.nrows % U32) * S % U32
      rw [e1]
      exact hx.1
    · show w.1.2 < (g.ncols % U32) * S % U32
      rw [e2]
      exact hx.2
  refine ⟨_, pixFold_some (imageWrites g S) _ hb, ?_, ?_, ?_⟩
  · rw [pixWriteFold_width]
    exact e1
  · rw [pixWriteFold_height]
    exact e2
  · intro c r hc hr
    rw [pixWriteFold_pix (fun c r => if g.data (c / S) (r / S) then 64 else 0)
      (imageWrites g S) _ (imageWrites_value g S hS hwb hhb) c r]
    simp [imageWrites_covers g S hS hwb hhb c r hc hr]

/-- **C6 (amended).** For every grid and cell size `S ≥ 1` whose dimension
products fit in `u32` (`nrows·S < 2^32` and `ncols·S < 2^32`), the
rasterizer produces a buffer of width `nrows * S` and height `ncols * S` —
the grid is `nrows` cells wide (its number of cell columns; shape is
`(width, height)`), so the buffer is (column count × S) wide and
(row count × S) tall.  The side conditions are necessary: `width` and
`height` are computed in `u32` (src/main.rs:100-101). -/
theorem c6_raster_dimensions :
    ∀ (g : Grid) (S : Nat), 1 ≤ S → g.nrows * S < U32 → g.ncols * S < U32 →
      ∃ img, array2ToImage g S = some img ∧
        img.width = g.nrows * S ∧ img.height = g.ncols * S := by
  intro g S hS hwb hhb
  obtain ⟨img, he, hw, hh, _⟩ := rasterChar g S hS hwb hhb
  exact ⟨img, he, hw, hh⟩

/-- Witness for C6 on a concrete 2-wide, 3-tall grid with `S = 4`. -/
theorem c6_raster_dimensions_witness :
    ∃ img, array2ToImage (allDead 2 3) 4 = some img ∧
      img.width = (allDead 2 3).nrows * 4 ∧ img.height = (allDead 2 3).ncols * 4 :=
  c6_raster_dimensions (allDead 2 3) 4 (by decide) (by decide) (by decide)

/-- **C6 counterexample.** `size` is accepted by clap up to `u32::MAX`, so
a 5-wide, 1-tall grid with `S = 858993460` is a legal input; there
`5·S = 4294967300` overflows `u32`, the width wraps to 4, and the very
first cell's writes go out of bounds: `put_pixel` panics and no
`(5·S)`-wide buffer is produced — refuting the claim for every `S ≥ 1`. -/
theorem c6_counterexample :
    array2ToImage (allDead 5 1) 858993460 = none := by
  unfold array2ToImage
  apply pixFold_none
  refine ⟨((4, 0), 0), ?_, ?_⟩
  · simp only [imageWrites, List.mem_flatMap]
    refine ⟨(0, 0), ?_, ?_⟩
    · rw [gridIndices_mem]
      exact ⟨by decide, by decide⟩
    · simp only [cellWrites, List.mem_flatMap, List.mem_map, List.mem_range]
      refine ⟨0, by decide, 4, by decide, ?_⟩
      decide
  · decide

/-- A `W`-wide, `H`-tall grid whose only live cell is `(a, b)`. -/
def oneLive (W H a b : Nat) : Grid := ⟨W, H, fun i j => decide (i = a ∧ j = b)⟩

/-- **C5 (amended).** When the buffer dimensions `W·S` and `H·S` fit in
`u32` (the arithmetic of src/main.rs:100-109 is `u32`), rasterizing the
all-dead `W×H` grid with cell size `S ≥ 1` yields a `(W*S) × (H*S)` buffer
of dead intensity 0 everywhere; the grid with exactly one live cell
`(a, b)` rasterizes to the same buffer except the `S×S` block at
`(a*S, b*S)`, which holds the live intensity 64. -/
theorem c5_raster_blocks :
    ∀ (W H S a b : Nat), 1 ≤ W → 1 ≤ H → 1 ≤ S → a < W → b < H →
      W * S < U32 → H * S < U32 →
      ∃ img0 img1,
        array2ToImage (allDead W H) S = some img0 ∧
        array2ToImage (oneLive W H a b) S = some img1 ∧
        img0.width = W * S ∧ img0.height = H * S ∧
        img1.width = W * S ∧ img1.height = H * S ∧
        (∀ c r, c < W * S → r < H * S → img0.pix c r = 0) ∧
        (∀ c r, c < W * S → r < H * S →
          img1.pix c r =
            if a * S ≤ c ∧ c < a * S + S ∧ b * S ≤ r ∧ r < b * S + S then 64
            else img0.pix c r) := by
  intro W H S a b _ _ hS ha hb hwb hhb
  obtain ⟨img0, he0, hw0, hh0, hp0⟩ := rasterChar (allDead W H) S hS hwb hhb
  obtain ⟨img1, he1, hw1, hh1, hp1⟩ := rasterChar (oneLive W H a b) S hS hwb hhb
  refine ⟨img0, img1, he0, he1, hw0, hh0, hw1, hh1, ?_, ?_⟩
  · intro c r hc hr
    rw [hp0 c r hc hr]
    rfl
  · intro c r hc hr
    rw [hp0 c r hc hr, hp1 c r hc hr]
    simp only [oneLive, allDead]
    by_cases hblock : a * S ≤ c ∧ c < a * S + S ∧ b * S ≤ r ∧ r < b * S + S
    · have h1 : c / S = a := (div_block_iff c a S hS).mpr ⟨hblock.1, hblock.2.1⟩
      have h2 : r / S = b := (div_block_iff r b S hS).mpr ⟨hblock.2.2.1, hblock.2.2.2⟩
      simp [h1, h2, hblock]
    · have hne : ¬ (c / S = a ∧ r / S = b) := by
        intro hcr
        apply hblock
        have h1 := (div_block_iff c a S hS).mp hcr.1
        have h2 := (div_block_iff r b S hS).mp hcr.2
        exact ⟨h1.1, h1.2, h2.1, h2.2⟩
      simp [hblock]
      intro h1 h2
      exact absurd ⟨h1, h2⟩ hne

/-- Witness for C5 at `W = H = 2`, `S = 1`, live cell `(0, 1)`. -/
theorem c5_raster_blocks_witness :
    ∃ img0 img1,
      array2ToImage (allDead 2 2) 1 = some img0 ∧
      array2ToImage (oneLive 2 2 0 1) 1 = some img1 ∧
      img0.width = 2 * 1 ∧ img0.height = 2 * 1 ∧
      img1.width = 2 * 1 ∧ img1.height = 2 * 1 ∧
      (∀ c r, c < 2 * 1 → r < 2 * 1 → img0.pix c r = 0) ∧
      (∀ c r, c < 2 * 1 → r < 2 * 1 →
        img1.pix c r =
          if 0 * 1 ≤ c ∧ c < 0 * 1 + 1 ∧ 1 * 1 ≤ r ∧ r < 1 * 1 + 1 then 64
          else img0.pix c r) :=
  c5_raster_blocks 2 2 1 0 1 (by decide) (by decide) (by decide) (by decide) (by decide)
    (by decide) (by decide)

/-- **C5 counterexample.** A 3-wide, 1-tall all-dead grid with the legal
cell size `S = 1431655766` has `3·S = 4294967298`, which overflows `u32`:
the width wraps to 2, the first cell's writes go out of bounds, and no
`(W·S)×(H·S)` buffer exists at all — refuting the claim for every `S ≥ 1`. -/
theorem c5_counterexample :
    array2ToImage (allDead 3 1) 1431655766 = none := by
  unfold array2ToImage
  apply pixFold_none
  refine ⟨((2, 0), 0), ?_, ?_⟩
  · simp only [imageWrites, List.mem_flatMap]
    refine ⟨(0, 0), ?_, ?_⟩
    · rw [gridIndices_mem]
      exact ⟨by decide, by decide⟩
    · simp only [cellWrites, List.mem_flatMap, List.mem_map, List.mem_range]
      refine ⟨0, by decide, 2, by decide, ?_⟩
      decide
  · decide

/-- Modelled from the spec: the external `rand` crate's `rng.gen_bool(p)` is
"an unbiased per-cell Bernoulli draw" — with a uniform draw `u ∈ [0,1)`,
return `u < p` (probabilities and draws as rationals). -/
def genBool (p u : ℚ) : Bool := decide (u < p)

/-- The random fill of src/main.rs:52-57: `cur.iter_mut()` sets every cell
of the grid to an independent `gen_bool(fill)` draw (`draws i j` being the
uniform variate the per-worker RNG produced for cell `(i, j)`). -/
def fillGrid (g : Grid) (p : ℚ) (draws : Nat → Nat → ℚ) : Grid :=
  { g with
    data := fun i j =>
      if i < g.nrows ∧ j < g.ncols then genBool p (draws i j) else g.data i j }

/-- **C8.** Whatever the random source produces (any in-range draws), the
fill with probability 0 sets every cell to false and the fill with
probability 1 sets every cell to true. -/
theorem c8_fill_endpoints :
    ∀ (g : Grid) (draws : Nat → Nat → ℚ),
      (∀ i j, 0 ≤ draws i j ∧ draws i j < 1) →
      (∀ i j, i < g.nrows → j < g.ncols → (fillGrid g 0 draws).data i j = false) ∧
      (∀ i j, i < g.nrows → j < g.ncols → (fillGrid g 1 draws).data i j = true) := by
  intro g draws h
  constructor
  · intro i j hi hj
    simp only [fillGrid, genBool, hi, hj, and_self, if_true]
    simp only [decide_eq_false_iff_not, not_lt]
    exact (h i j).1
  · intro i j hi hj
    simp only [fillGrid, genBool, hi, hj, and_self, if_true]
    simp only [decide_eq_true_eq]
    exact (h i j).2

/-- Witness for C8 on a 2×2 grid with all draws `1/2`. -/
theorem c8_fill_endpoints_witness :
    (∀ i j, i < (allDead 2 2).nrows → j < (allDead 2 2).ncols →
      (fillGrid (allDead 2 2) 0 fun _ _ => 1 / 2).data i j = false) ∧
    (∀ i j, i < (allDead 2 2).nrows → j < (allDead 2 2).ncols →
      (fillGrid (allDead 2 2) 1 fun _ _ => 1 / 2).data i j = true) :=
  c8_fill_endpoints (allDead 2 2) (fun _ _ => 1 / 2)
    (fun _ _ => by norm_num)

/-- The configuration fields the driver loop reads. -/
structure Config where
  width : Nat
  height : Nat
  maxIter : Nat
  fill : ℚ

structure DriverState where
  iter : Nat
  cur : Grid
  next : Grid

/-- src/main.rs:47-49: two all-false `(width, height)` buffers, and the
reseed counter `iter` starting at `max_iter`. -/
def initState (cfg : Config) : DriverState :=
  ⟨cfg.maxIter, allDead cfg.width cfg.height, allDead cfg.width cfg.height⟩

/-- The `cur` grid after the conditional reseed at the top of the loop body
(src/main.rs:51-59). -/
def curAfterFill (cfg : Config) (draws : Nat → Nat → ℚ) (s : DriverState) : Grid :=
  if s.iter = cfg.maxIter then fillGrid s.cur cfg.fill draws else s.cur

/-- One pass of the driver loop body (src/main.rs:50-68): (1) if
`iter == max_iter`, refill `cur` randomly and zero `iter`; (2) render `cur`
(the first component: the grid the saved image `array2ToImage` is taken of,
and whether this cycle reseeded); (3) `next_generation(cur, next)` — a panic
there kills the process, hence no successor state; (4) `mem::swap` the
buffers and increment `iter`. -/
def cycleStep (cfg : Config) (draws : Nat → Nat → ℚ) (s : DriverState) :
    (Grid × Bool) × Option DriverState :=
  ((curAfterFill cfg draws s, decide (s.iter = cfg.maxIter)),
    match nextGeneration (curAfterFill cfg draws s) s.next with
    | some n1 =>
      some ⟨(if s.iter = cfg.maxIter then 0 else s.iter) + 1, n1,
        curAfterFill cfg draws s⟩
    | none => none)

/-- The driver state entering cycle `k` (`draws k` are cycle `k`'s random
draws); `none` once a generation has panicked. -/
def runTo (cfg : Config) (draws : Nat → Nat → Nat → ℚ) : Nat → Option DriverState
  | 0 => some (initState cfg)
  | k + 1 =>
    match runTo cfg draws k with
    | some s => (cycleStep cfg (draws k) s).2
    | none => none

/-- What cycle `k` renders, and whether it reseeded first. -/
def eventAt (cfg : Config) (draws : Nat → Nat → Nat → ℚ) (k : Nat) :
    Option (Grid × Bool) :=
  (runTo cfg draws k).map fun s => (cycleStep cfg (draws k) s).1

/-- Counter invariant of the driver loop for `max_iter ≥ 1`: entering cycle
`k`, either `k = 0` and the counter still holds `max_iter`, or the counter
holds `i ∈ [1, max_iter]` with `k = q * max_iter + i`. -/
theorem runTo_inv (cfg : Config) (draws : Nat → Nat → Nat → ℚ)
    (hm : 1 ≤ cfg.maxIter) :
    ∀ k s, runTo cfg draws k = some s →
      (k = 0 ∧ s.iter = cfg.maxIter) ∨
      (∃ q, k = q * cfg.maxIter + s.iter ∧ 1 ≤ s.iter ∧ s.iter ≤ cfg.maxIter) := by
  intro k
  induction k with
  | zero =>
    intro s hs
    rw [runTo] at hs
    cases hs
    left
    exact ⟨rfl, rfl⟩
  | succ k ih =>
    intro s hs
    rw [runTo] at hs
    rcases hr : runTo cfg draws k with _ | s'
    · rw [hr] at hs
      cases hs
    · rw [hr] at hs
      simp only [cycleStep] at hs
      rcases hn : nextGeneration (curAfterFill cfg (draws k) s') s'.next with _ | n1
      · rw [hn] at hs
        cases hs
      · rw [hn] at hs
        have hinj := Option.some.inj hs
        have hsiter : s.iter = (if s'.iter = cfg.maxIter then 0 else s'.iter) + 1 := by
          rw [← hinj]
        rcases ih s' hr with ⟨hk0, hiter⟩ | ⟨q, hq, h1, h2⟩
        · right
          subst hk0
          rw [hiter, if_pos rfl] at hsiter
          exact ⟨0, by omega, by omega, by omega⟩
        · right
          by_cases hfull : s'.iter = cfg.maxIter
          · rw [if_pos hfull] at hsiter
            refine ⟨q + 1, ?_, by omega, by omega⟩
            have e1 : (q + 1) * cfg.maxIter = q * cfg.maxIter + cfg.maxIter := by ring
            omega
          · rw [if_neg hfull] at hsiter
            exact ⟨q, by omega, by omega, by omega⟩

/-- With `max_iter = 0`, the counter entering cycle `k ≥ 1` equals `k`,
which never again equals `max_iter = 0`. -/
theorem runTo_inv_zero (cfg : Config) (draws : Nat → Nat → Nat → ℚ)
    (hm : cfg.maxIter = 0) :
    ∀ k s, runTo cfg draws k = some s →
      (k = 0 ∧ s.iter = 0) ∨ (1 ≤ k ∧ s.iter = k) := by
  intro k
  induction k with
  | zero =>
    intro s hs
    rw [runTo] at hs
    cases hs
    left
    exact ⟨rfl, hm⟩
  | succ k ih =>
    intro s hs
    rw [runTo] at hs
    rcases hr : runTo cfg draws k with _ | s'
    · rw [hr] at hs
      cases hs
    · rw [hr] at hs
      simp only [cycleStep] at hs
      rcases hn : nextGeneration (curAfterFill cfg (draws k) s') s'.next with _ | n1
      · rw [hn] at hs
        cases hs
      · rw [hn] at hs
        have hinj := Option.some.inj hs
        have hsiter : s.iter = (if s'.iter = cfg.maxIter then 0 else s'.iter) + 1 := by
          rw [← hinj]
        rcases ih s' hr with ⟨hk0, hiter⟩ | ⟨h1, h2⟩
        · right
          subst hk0
          rw [hiter, hm, if_pos rfl] at hsiter
          exact ⟨by omega, by omega⟩
        · right
          have hne : ¬ (s'.iter = cfg.maxIter) := by omega
          rw [if_neg hne] at hsiter
          exact ⟨by omega, by omega⟩

/-- Divisibility reading of the invariant: the cycle-`k` reseed test
`iter == max_iter` holds iff `max_iter` divides `k` (for `max_iter ≥ 1`). -/
theorem fill_flag_iff (cfg : Config) (draws : Nat → Nat → Nat → ℚ)
    (hm : 1 ≤ cfg.maxIter) (k : Nat) (s : DriverState)
    (hs : runTo cfg draws k = some s) :
    (cycleStep cfg (draws k) s).1.2 = true ↔ k % cfg.maxIter = 0 := by
  have hflag : (cycleStep cfg (draws k) s).1.2 = decide (s.iter = cfg.maxIter) := rfl
  rw [hflag, decide_eq_true_eq]
  rcases runTo_inv cfg draws hm k s hs with ⟨hk0, hiter⟩ | ⟨q, hq, h1, h2⟩
  · subst hk0
    simp [hiter, Nat.zero_mod]
  · subst hq
    constructor
    · intro he
      rw [he]
      have e : q * cfg.maxIter + cfg.maxIter = (q + 1) * cfg.maxIter := by ring
      rw [e, Nat.mul_mod_left]
    · intro he
      have e2 : (q * cfg.maxIter + s.iter) % cfg.maxIter = s.iter % cfg.maxIter := by
        have e3 : q * cfg.maxIter + s.iter = s.iter + q * cfg.maxIter := by ring
        rw [e3, Nat.add_mul_mod_self_right]
      rw [e2] at he
      rcases Nat.lt_or_ge s.iter cfg.maxIter with hlt | hge
      · rw [Nat.mod_eq_of_lt hlt] at he
        omega
      · omega

/-- **C10 (amended).** The reseed counter starts at `max_iter`, so the very
first cycle reseeds before rendering: the first rendered frame is the
random fill, never the initial all-false allocation.  For `max_iter ≥ 1`
the reseed then recurs exactly every `max_iter` cycles (cycle `k` reseeds
iff `max_iter` divides `k`).  With `max_iter = 0`, the reseed runs on the
first cycle only and never recurs (the counter, incremented every cycle,
never equals 0 again). -/
theorem c10_reseed_schedule :
    ∀ (cfg : Config) (draws : Nat → Nat → Nat → ℚ),
      eventAt cfg draws 0 =
        some (fillGrid (allDead cfg.width cfg.height) cfg.fill (draws 0), true) ∧
      (1 ≤ cfg.maxIter → ∀ k s, runTo cfg draws k = some s →
        ((cycleStep cfg (draws k) s).1.2 = true ↔ k % cfg.maxIter = 0)) ∧
      (cfg.maxIter = 0 → ∀ k s, runTo cfg draws k = some s →
        ((cycleStep cfg (draws k) s).1.2 = true ↔ k = 0)) := by
  intro cfg draws
  refine ⟨?_, fill_flag_iff cfg draws, ?_⟩
  · simp [eventAt, runTo, cycleStep, curAfterFill, initState]
  · intro hm k s hs
    have hflag : (cycleStep cfg (draws k) s).1.2 = decide (s.iter = cfg.maxIter) := rfl
    rw [hflag, decide_eq_true_eq, hm]
    rcases runTo_inv_zero cfg draws hm k s hs with ⟨hk0, hiter⟩ | ⟨h1, h2⟩
    · simp [hk0, hiter]
    · constructor
      · intro he
        omega
      · intro he
        omega

/-- Witness for C10 with a 1×1 board, `max_iter = 1`, fill probability 0:
cycle 1 reseeds (1 divides 1). -/
theorem c10_reseed_schedule_witness :
    eventAt (Config.mk 1 1 1 0) (fun _ _ _ => 0) 0 =
      some (fillGrid (allDead 1 1) 0 ((fun _ _ _ => (0 : ℚ)) 0), true) ∧
    ∀ s, runTo (Config.mk 1 1 1 0) (fun _ _ _ => 0) 1 = some s →
      ((cycleStep (Config.mk 1 1 1 0) ((fun _ _ _ => (0 : ℚ)) 1) s).1.2 = true ↔
        1 % 1 = 0) :=
  ⟨(c10_reseed_schedule (Config.mk 1 1 1 0) (fun _ _ _ => 0)).1,
   fun s hs =>
     (c10_reseed_schedule (Config.mk 1 1 1 0) (fun _ _ _ => 0)).2.1 (by decide) 1 s hs⟩

/-- **C10 counterexample.** With `max_iter = 0` (1×1 board, probability-0
fill), cycle 1 does NOT reseed: the flag of the second cycle's event is
`false`, refuting "with max_iter = 0 it recurs on every cycle". -/
theorem c10_counterexample :
    (eventAt (Config.mk 1 1 0 0) (fun _ _ _ => 0) 1).map Prod.snd = some false := by
  rfl

/-- A 5-wide, 3-tall board with a horizontal 3-cell blinker: live cells at
first-axis (width) indices 1, 2, 3 of the middle height index 1. -/
def blink53 : Grid := ⟨5, 3, fun i j => decide ((i = 1 ∨ i = 2 ∨ i = 3) ∧ j = 1)⟩

/-- **C4 counterexample.** On the 5-wide, 3-tall board (allowed by the
claim), the blinker does not return after two generations: cell `(1, 1)` is
live initially but dead after two generations (the mis-wrapped row axis
collapses the pattern: one generation leaves only `(3, 1)`, two leave an
empty board). -/
theorem c4_counterexample :
    blink53.data 1 1 = true ∧
    (iterSteps 2 blink53).map (fun g => g.data 1 1) = some false := by
  constructor
  · rfl
  · rfl

/-- Horizontal blinker on the `N×N` board: cells `(1,2), (2,2), (3,2)`. -/
def blinkH (N : Nat) : Grid :=
  ⟨N, N, fun p q => decide ((p = 1 ∨ p = 2 ∨ p = 3) ∧ q = 2)⟩

/-- Vertical blinker on the `N×N` board: cells `(2,1), (2,2), (2,3)`. -/
def blinkV (N : Nat) : Grid :=
  ⟨N, N, fun p q => decide (p = 2 ∧ (q = 1 ∨ q = 2 ∨ q = 3))⟩

/-- Indicator form of one neighbor read. -/
def ind (g : Grid) (r c : Nat) : Nat := if g.data r c then 1 else 0

theorem countFn_unfold (g : Grid) (x y : Nat) :
    countFn g x y =
      0 + ind g (wrap y (-1) g.ncols) (wrap x (-1) g.ncols)
        + ind g (wrap y 0 g.ncols) (wrap x (-1) g.ncols)
        + ind g (wrap y 1 g.ncols) (wrap x (-1) g.ncols)
        + ind g (wrap y (-1) g.ncols) (wrap x 0 g.ncols)
        + ind g (wrap y 1 g.ncols) (wrap x 0 g.ncols)
        + ind g (wrap y (-1) g.ncols) (wrap x 1 g.ncols)
        + ind g (wrap y 0 g.ncols) (wrap x 1 g.ncols)
        + ind g (wrap y 1 g.ncols) (wrap x 1 g.ncols) := rfl

theorem blinkH_data_eq (N p q : Nat) :
    (blinkH N).data p q = decide ((p = 1 ∨ p = 2 ∨ p = 3) ∧ q = 2) := rfl

theorem blinkV_data_eq (N p q : Nat) :
    (blinkV N).data p q = decide (p = 2 ∧ (q = 1 ∨ q = 2 ∨ q = 3)) := rfl

theorem blinkH_false (N i j : Nat) (h : ¬ ((i = 1 ∨ i = 2 ∨ i = 3) ∧ j = 2)) :
    (blinkH N).data i j = false := by
  rw [blinkH_data_eq]
  simp only [decide_eq_false_iff_not]
  exact h

theorem blinkV_false (N i j : Nat) (h : ¬ (i = 2 ∧ (j = 1 ∨ j = 2 ∨ j = 3))) :
    (blinkV N).data i j = false := by
  rw [blinkV_data_eq]
  simp only [decide_eq_false_iff_not]
  exact h

theorem ind_H_far_r (N r c : Nat) (h : ¬ (r = 1 ∨ r = 2 ∨ r = 3)) :
    ind (blinkH N) r c = 0 := by
  have hd : (blinkH N).data r c = false := blinkH_false N r c (fun hx => h hx.1)
  simp [ind, hd]

theorem ind_H_far_c (N r c : Nat) (h : ¬ c = 2) :
    ind (blinkH N) r c = 0 := by
  have hd : (blinkH N).data r c = false := blinkH_false N r c (fun hx => h hx.2)
  simp [ind, hd]

theorem ind_H_hit (N r c : Nat) (hr : r = 1 ∨ r = 2 ∨ r = 3) (hc : c = 2) :
    ind (blinkH N) r c = 1 := by
  have hd : (blinkH N).data r c = true := by
    rw [blinkH_data_eq]
    simp only [decide_eq_true_eq]
    exact ⟨hr, hc⟩
  simp [ind, hd]

theorem ind_V_far_r (N r c : Nat) (h : ¬ r = 2) :
    ind (blinkV N) r c = 0 := by
  have hd : (blinkV N).data r c = false := blinkV_false N r c (fun hx => h hx.1)
  simp [ind, hd]

theorem ind_V_far_c (N r c : Nat) (h : ¬ (c = 1 ∨ c = 2 ∨ c = 3)) :
    ind (blinkV N) r c = 0 := by
  have hd : (blinkV N).data r c = false := blinkV_false N r c (fun hx => h hx.2)
  simp [ind, hd]

theorem ind_V_hit (N r c : Nat) (hr : r = 2) (hc : c = 1 ∨ c = 2 ∨ c = 3) :
    ind (blinkV N) r c = 1 := by
  have hd : (blinkV N).data r c = true := by
    rw [blinkV_data_eq]
    simp only [decide_eq_true_eq]
    exact ⟨hr, hc⟩
  simp [ind, hd]

theorem wrap_one_cases (a m : Nat) (ha : a < m) :
    wrap a 1 m = a + 1 ∨ (a + 1 = m ∧ wrap a 1 m = 0) := by
  rcases Nat.lt_or_ge (a + 1) m with h | h
  · left
    exact wrap_one a m h
  · right
    have he : a + 1 = m := by omega
    refine ⟨he, ?_⟩
    have e2 : a = m - 1 := by omega
    rw [e2, wrap_top_one m (by omega)]

theorem wrap41_cases (N : Nat) (h5 : 5 ≤ N) :
    wrap 4 1 N = 0 ∨ wrap 4 1 N = 5 := by
  rcases wrap_one_cases 4 N (by omega) with h | ⟨he, h⟩
  · right
    rw [h]
  · left
    exact h

theorem nextState_square (g : Grid) (hsq : g.ncols = g.nrows) (hc : 1 ≤ g.ncols)
    (x y : Nat) (hx : x < g.ncols) (hy : y < g.nrows) :
    nextState g x y = some (lifeRule (g.data y x) (countFn g x y)) := by
  have hln := liveNeighbors_eq_countFn g x y hc (by omega)
  have hcell := get_in_bounds g y x hy hx
  simp [nextState, hln, hcell]

theorem cntFold_congr (g g' : Grid) (hcc : g.ncols = g'.ncols) (h1 : 1 ≤ g.ncols)
    (h : ∀ i j, i < g.ncols → j < g.ncols → g.data i j = g'.data i j) (x y : Nat) :
    ∀ (l : List (Int × Int)) (n : Nat),
      l.foldl (cntStep g x y) n = l.foldl (cntStep g' x y) n := by
  intro l
  induction l with
  | nil => intro n; rfl
  | cons d t ih =>
    intro n
    rw [List.foldl_cons, List.foldl_cons]
    have e : cntStep g x y n d = cntStep g' x y n d := by
      unfold cntStep
      rw [← hcc, h _ _ (wrap_lt y d.2 g.ncols h1) (wrap_lt x d.1 g.ncols h1)]
    rw [e]
    exact ih _

theorem countFn_congr (g g' : Grid) (hcc : g.ncols = g'.ncols) (h1 : 1 ≤ g.ncols)
    (h : ∀ i j, i < g.ncols → j < g.ncols → g.data i j = g'.data i j) (x y : Nat) :
    countFn g x y = countFn g' x y :=
  cntFold_congr g g' hcc h1 h x y neighborOffsets 0

/-- Existential form of the generation characterization. -/
theorem nextGeneration_exists (cur next : Grid) (f : Nat × Nat → Bool)
    (h : ∀ p ∈ gridIndices next.nrows next.ncols, nextState cur p.2 p.1 = some (f p)) :
    ∃ g', nextGeneration cur next = some g' ∧ g'.nrows = next.nrows ∧
      g'.ncols = next.ncols ∧
      ∀ i j, g'.data i j =
        if i < next.nrows ∧ j < next.ncols then f (i, j) else next.data i j := by
  obtain ⟨e, r, c, d⟩ := nextGeneration_some cur next f h
  exact ⟨_, e, r, c, d⟩

/-- One generation turns the horizontal blinker cell `(i, j)` into the
vertical blinker value, for every in-range cell of an `N×N` board, `N ≥ 5`. -/
theorem blinkH_step_cell (N : Nat) (h5 : 5 ≤ N) (i j : Nat) (hi : i < N) (hj : j < N) :
    lifeRule ((blinkH N).data i j) (countFn (blinkH N) j i) = (blinkV N).data i j := by
  rw [countFn_unfold, show (blinkH N).ncols = N from rfl]
  by_cases hj4 : 4 ≤ j
  · have hc0 : wrap j (-1) N = j - 1 := wrap_neg_one j N (by omega) hj
    have hcz : wrap j 0 N = j := wrap_zero_off j N hj
    rcases wrap_one_cases j N hj with hj1 | ⟨hj1e, hj1⟩ <;>
      rw [hj1, hc0, hcz] <;>
      simp (disch := omega) only [ind_H_far_c] <;>
      rw [blinkH_false N i j (by omega), blinkV_false N i j (by omega)] <;>
      rfl
  · by_cases hi5 : 5 ≤ i
    · have hr0 : wrap i (-1) N = i - 1 := wrap_neg_one i N (by omega) hi
      have hrz : wrap i 0 N = i := wrap_zero_off i N hi
      rcases wrap_one_cases i N hi with hi1 | ⟨hi1e, hi1⟩ <;>
        rw [hi1, hr0, hrz] <;>
        simp (disch := omega) only [ind_H_far_r] <;>
        rw [blinkH_false N i j (by omega), blinkV_false N i j (by omega)] <;>
      rfl
    · have hi4 : i ≤ 4 := by omega
      have hj3 : j ≤ 3 := by omega
      rcases wrap41_cases N h5 with h41 | h41 <;>
        interval_cases i <;> interval_cases j <;>
          simp (disch := omega) only [wrap_zero_neg_one, wrap_neg_one, wrap_zero_off,
            wrap_one, h41, ind_H_far_r, ind_H_far_c, ind_H_hit] <;>
          try rfl

/-- One generation turns the vertical blinker cell `(i, j)` back into the
horizontal blinker value, for every in-range cell of an `N×N` board. -/
theorem blinkV_step_cell (N : Nat) (h5 : 5 ≤ N) (i j : Nat) (hi : i < N) (hj : j < N) :
    lifeRule ((blinkV N).data i j) (countFn (blinkV N) j i) = (blinkH N).data i j := by
  rw [countFn_unfold, show (blinkV N).ncols = N from rfl]
  by_cases hi4 : 4 ≤ i
  · have hr0 : wrap i (-1) N = i - 1 := wrap_neg_one i N (by omega) hi
    have hrz : wrap i 0 N = i := wrap_zero_off i N hi
    rcases wrap_one_cases i N hi with hi1 | ⟨hi1e, hi1⟩ <;>
      rw [hi1, hr0, hrz] <;>
      simp (disch := omega) only [ind_V_far_r] <;>
      rw [blinkV_false N i j (by omega), blinkH_false N i j (by omega)] <;>
      rfl
  · by_cases hj5 : 5 ≤ j
    · have hc0 : wrap j (-1) N = j - 1 := wrap_neg_one j N (by omega) hj
      have hcz : wrap j 0 N = j := wrap_zero_off j N hj
      rcases wrap_one_cases j N hj with hj1 | ⟨hj1e, hj1⟩ <;>
        rw [hj1, hc0, hcz] <;>
        simp (disch := omega) only [ind_V_far_c] <;>
        rw [blinkV_false N i j (by omega), blinkH_false N i j (by omega)] <;>
      rfl
    · have hi3 : i ≤ 3 := by omega
      have hj4 : j ≤ 4 := by omega
      rcases wrap41_cases N h5 with h41 | h41 <;>
        interval_cases i <;> interval_cases j <;>
          simp (disch := omega) only [wrap_zero_neg_one, wrap_neg_one, wrap_zero_off,
            wrap_one, h41, ind_V_far_r, ind_V_far_c, ind_V_hit] <;>
          try rfl

/-- **C4 (amended).** On every square board `N×N` with `N ≥ 5`, the
horizontal 3-cell blinker at `(1,2), (2,2), (3,2)` passes through the
vertical orientation `(2,1), (2,2), (2,3)` after one generation (and so
differs from its original state then) and returns to its original state
after exactly two generations. -/
theorem c4_blinker_square_period2 (N : Nat) (h5 : 5 ≤ N) :
    ∃ g1 g2, nextGeneration (blinkH N) (blinkH N) = some g1 ∧
      (∀ i j, i < N → j < N → g1.data i j = (blinkV N).data i j) ∧
      g1.data 1 2 ≠ (blinkH N).data 1 2 ∧
      nextGeneration g1 g1 = some g2 ∧
      (∀ i j, i < N → j < N → g2.data i j = (blinkH N).data i j) := by
  have h1 : ∀ p ∈ gridIndices (blinkH N).nrows (blinkH N).ncols,
      nextState (blinkH N) p.2 p.1 =
        some ((fun p : Nat × Nat =>
          lifeRule ((blinkH N).data p.1 p.2) (countFn (blinkH N) p.2 p.1)) p) := by
    intro p hp
    rcases (gridIndices_mem _ _ _).mp hp with ⟨hp1, hp2⟩
    exact nextState_square (blinkH N) rfl (by omega) p.2 p.1 hp2 hp1
  obtain ⟨g1, e1, r1, c1, d1⟩ := nextGeneration_exists (blinkH N) (blinkH N) _ h1
  have r1' : g1.nrows = N := r1
  have c1' : g1.ncols = N := c1
  have hg1V : ∀ i j, i < N → j < N → g1.data i j = (blinkV N).data i j := by
    intro i j hi hj
    rw [d1 i j,
      if_pos (show i < (blinkH N).nrows ∧ j < (blinkH N).ncols from ⟨hi, hj⟩)]
    exact blinkH_step_cell N h5 i j hi hj
  have hne12 : g1.data 1 2 ≠ (blinkH N).data 1 2 := by
    rw [hg1V 1 2 (by omega) (by omega), blinkV_false N 1 2 (by omega), blinkH_data_eq]
    simp
  have hsq1 : g1.ncols = g1.nrows := by rw [c1', r1']
  have hc1 : 1 ≤ g1.ncols := by rw [c1']; omega
  have h2 : ∀ p ∈ gridIndices g1.nrows g1.ncols,
      nextState g1 p.2 p.1 =
        some ((fun p : Nat × Nat => (blinkH N).data p.1 p.2) p) := by
    intro p hp
    rcases (gridIndices_mem _ _ _).mp hp with ⟨hp1, hp2⟩
    have hp1' : p.1 < N := by rw [← r1']; exact hp1
    have hp2' : p.2 < N := by rw [← c1']; exact hp2
    rw [nextState_square g1 hsq1 hc1 p.2 p.1 hp2 hp1]
    have hd : g1.data p.1 p.2 = (blinkV N).data p.1 p.2 := hg1V _ _ hp1' hp2'
    have hcnt : countFn g1 p.2 p.1 = countFn (blinkV N) p.2 p.1 := by
      apply countFn_congr g1 (blinkV N) c1' hc1
      intro a b ha hb
      exact hg1V a b (by rw [← c1']; exact ha) (by rw [← c1']; exact hb)
    rw [hd, hcnt, blinkV_step_cell N h5 p.1 p.2 hp1' hp2']
  obtain ⟨g2, e2, r2, c2, d2⟩ := nextGeneration_exists g1 g1 _ h2
  refine ⟨g1, g2, e1, hg1V, hne12, e2, ?_⟩
  intro i j hi hj
  rw [d2 i j,
    if_pos (show i < g1.nrows ∧ j < g1.ncols from
      ⟨by rw [r1']; exact hi, by rw [c1']; exact hj⟩)]

/-- Witness for C4 on the concrete 5×5 board. -/
theorem c4_blinker_square_period2_witness :
    ∃ g1 g2, nextGeneration (blinkH 5) (blinkH 5) = some g1 ∧
      (∀ i j, i < 5 → j < 5 → g1.data i j = (blinkV 5).data i j) ∧
      g1.data 1 2 ≠ (blinkH 5).data 1 2 ∧
      nextGeneration g1 g1 = some g2 ∧
      (∀ i j, i < 5 → j < 5 → g2.data i j = (blinkH 5).data i j) :=
  c4_blinker_square_period2 5 (by decide)

end GoL
